import Mathlib

/-!
Verification of the MCMC examples in `ch12.ipynb` (Blitzstein & Hwang, chapter 12).

The notebook contains two sampling loops:

* a Metropolis-Hastings chain for the Normal-Normal posterior
  (`Theta[0] = y; for i in range(1, niter): ...`), and
* a Gibbs chain for the chicken-egg model
  (`P[0] = 0.5; N[0] = 2*x; for i in range(1, niter): ...`).

Both loops draw their randomness from scipy (`norm.rvs`, `binom.rvs`,
`beta.rvs`, `poisson.rvs`).  The embedding abstracts each distribution draw
as an oracle: a function of the iteration index and of the distribution
parameters the code passes to the library at that iteration.  This keeps the
data flow of the source loops (which chain value feeds which parameter) fully
visible while leaving the distributional content abstract.  Floating-point
numbers are modelled as real numbers.
-/

noncomputable section

/-- Density of the Normal distribution with location `loc` and scale `s`,
as computed by scipy's `norm.pdf(z, loc, scale)`:
`exp(-((z-loc)/s)^2/2) / (s*sqrt(2*pi))`. -/
def normalPdf (loc s z : ℝ) : ℝ :=
  Real.exp (-((z - loc) ^ 2) / (2 * s ^ 2)) / (s * Real.sqrt (2 * Real.pi))

/-- The unnormalized target density of the MH loop: the notebook multiplies
`norm.pdf(y, loc=theta, scale=sigma)` by `norm.pdf(theta, loc=mu, scale=tau)`
(likelihood times prior, cf. cell 5 of `ch12.ipynb`). -/
def mhTarget (y σ μ τ θ : ℝ) : ℝ :=
  normalPdf θ σ y * normalPdf μ τ θ

/-- The acceptance ratio `r` of the MH loop, exactly as the code computes it:
a direct quotient of the target density at the proposed state over the target
density at the current state (lines `r = norm.pdf(...)*norm.pdf(...) / (...)`). -/
def mhR (y σ μ τ θprev θnew : ℝ) : ℝ :=
  mhTarget y σ μ τ θnew / mhTarget y σ μ τ θprev

/-- The acceptance probability `min(r, 1)` passed by the code to
`binom.rvs(n=1, p=min(r, 1))`. -/
def mhAccept (y σ μ τ θprev θnew : ℝ) : ℝ :=
  min (mhR y σ μ τ θprev θnew) 1

/-- One iteration of the MH loop.  `εs i` is the value drawn by
`norm.rvs(scale=d)` at iteration `i` and `us i` the uniform variate underlying
the Bernoulli draw `binom.rvs(n=1, p=a)` (which accepts exactly when `u < a`).
The code sets `theta_new = Theta[i-1] + norm.rvs(scale=d)` and
`Theta[i] = theta_new if flip == 1 else Theta[i-1]`. -/
def mhStep (y σ μ τ : ℝ) (εs us : ℕ → ℝ) (i : ℕ) (prev : ℝ) : ℝ :=
  let cand := prev + εs i
  if us i < mhAccept y σ μ τ prev cand then cand else prev

/-- The MH chain of the notebook: `Theta[0] = y`, and `Theta[i]` for `i ≥ 1`
is produced from `Theta[i-1]` by `mhStep`. -/
def mhChain (y σ μ τ : ℝ) (εs us : ℕ → ℝ) : ℕ → ℝ
  | 0 => y
  | i + 1 => mhStep y σ μ τ εs us (i + 1) (mhChain y σ μ τ εs us i)

/-- The materialized trace `Theta` of length `niter`. -/
def mhTrace (y σ μ τ : ℝ) (εs us : ℕ → ℝ) (niter : ℕ) : List ℝ :=
  (List.range niter).map (mhChain y σ μ τ εs us)

/-- Transition density of the random-walk proposal kernel
`candidate = current + ε`, `ε ~ Normal(0, d²)`: the density of proposing `v`
from `u` is the Normal(0, d) density evaluated at `v - u` (cell 3 of the
notebook: `p(x,x')` is the PDF of `ε` at `x'-x`). -/
def proposalPdf (d u v : ℝ) : ℝ :=
  normalPdf 0 d (v - u)

/-- The Gibbs chain of the notebook's chicken-egg example, as the code writes
it: `P[0] = 0.5`, `N[0] = 2*x`, and for `i ≥ 1`
`P[i] = beta.rvs(a=x+a, b=N[i-1]-x+b)` followed by
`N[i] = x + poisson.rvs(mu=l*(1-P[i-1]))`.  `βd i ap bp` is the value the
Beta draw returns at iteration `i` when invoked with parameters `(ap, bp)`,
and `yd i m` the value the Poisson draw returns at iteration `i` when
invoked with rate `m`; parameter-dependence of the draws is kept explicit so
that which chain value feeds which distribution parameter is visible.  Note
the `N`-update takes its rate from `P[i-1]` (the first component of the
previous state), exactly as in the source. -/
def gibbsPN (x a b : ℕ) (l : ℝ) (βd : ℕ → ℝ → ℝ → ℝ) (yd : ℕ → ℝ → ℕ) :
    ℕ → ℝ × ℤ
  | 0 => (1 / 2, 2 * (x : ℤ))
  | n + 1 =>
    let st := gibbsPN x a b l βd yd n
    (βd (n + 1) ((x : ℝ) + (a : ℝ)) ((st.2 : ℝ) - (x : ℝ) + (b : ℝ)),
     (x : ℤ) + (yd (n + 1) (l * (1 - st.1)) : ℤ))

/-- The materialized Gibbs trace (the pair of arrays `P`, `N`). -/
def gibbsTrace (x a b : ℕ) (l : ℝ) (βd : ℕ → ℝ → ℝ → ℝ) (yd : ℕ → ℝ → ℕ)
    (niter : ℕ) : List (ℝ × ℤ) :=
  (List.range niter).map (gibbsPN x a b l βd yd)

/-- Modelled from the spec: the systematic-scan Gibbs contract of §4.4, in
which the second component's conditional draw sees the already-updated first
component of the same sweep — the `N`-update's Poisson rate uses the `p`
freshly drawn at the current iteration.  This is the contract the claim (and
the notebook's own step-2 description) prescribes; it is stated for
comparison with `gibbsPN`, the chain the code actually computes. -/
def gibbsPNScan (x a b : ℕ) (l : ℝ) (βd : ℕ → ℝ → ℝ → ℝ) (yd : ℕ → ℝ → ℕ) :
    ℕ → ℝ × ℤ
  | 0 => (1 / 2, 2 * (x : ℤ))
  | n + 1 =>
    let st := gibbsPNScan x a b l βd yd n
    let pNew := βd (n + 1) ((x : ℝ) + (a : ℝ)) ((st.2 : ℝ) - (x : ℝ) + (b : ℝ))
    (pNew, (x : ℤ) + (yd (n + 1) (l * (1 - pNew)) : ℤ))

/-- Beta-draw oracle used to separate the two Gibbs semantics: it returns
`9/10`, a value different from the initial `P[0] = 0.5`. -/
def betaDrawW : ℕ → ℝ → ℝ → ℝ := fun _ _ _ => 9 / 10

/-- Poisson-draw oracle used to separate the two Gibbs semantics: its value
`⌊m⌋` depends on the rate `m` it is invoked with. -/
def poisDrawW : ℕ → ℝ → ℕ := fun _ m => (⌊m⌋).toNat

/-- Error kind raised by scipy when a distribution parameter lies outside its
domain (non-positive Beta shape, negative Poisson rate). -/
inductive MCMCError where
  | invalidParameter : MCMCError

/-- scipy's `beta.rvs(a=ap, b=bp)`: if a shape parameter is outside its
domain the library raises (modelled as `Except.error`); otherwise the draw
returns the oracle value `v`. -/
def beta_rvs (v ap bp : ℝ) : Except MCMCError ℝ :=
  if ap ≤ 0 ∨ bp ≤ 0 then .error .invalidParameter else .ok v

/-- scipy's `poisson.rvs(mu=m)`: a negative rate raises, otherwise the draw
returns the oracle value `v`. -/
def poisson_rvs (v : ℕ) (m : ℝ) : Except MCMCError ℕ :=
  if m < 0 then .error .invalidParameter else .ok v

/-- Run state of the Gibbs loop: the current values of the two components
plus the prefixes of the arrays `P` and `N` written so far. -/
structure GibbsState where
  p : ℝ
  n : ℤ
  ps : List ℝ
  ns : List ℤ

/-- Abort information when an iteration raises: the iteration index at which
the error occurred, the error, and the array prefixes written before the
abort (Python exception semantics: the loop stops at the raising statement
and the arrays keep exactly what was already assigned). -/
structure GibbsFail where
  idx : ℕ
  err : MCMCError
  pTrace : List ℝ
  nTrace : List ℤ

/-- The state after the initialization cell: `P[0] = 0.5`, `N[0] = 2*x`. -/
def gibbsInit (x : ℕ) : GibbsState :=
  ⟨1 / 2, 2 * (x : ℤ), [1 / 2], [2 * (x : ℤ)]⟩

/-- One iteration `i ≥ 1` of the Gibbs loop with scipy's parameter
validation: first `P[i] = beta.rvs(a=x+a, b=N[i-1]-x+b)` — on error the loop
aborts before anything of step `i` is written — then
`N[i] = x + poisson.rvs(mu=l*(1-P[i-1]))` — on error the loop aborts with
`P[i]` already written, since the assignment to `P[i]` precedes the Poisson
call in the source. -/
def gibbsStepE (x a b : ℕ) (l : ℝ) (βd : ℕ → ℝ → ℝ → ℝ) (yd : ℕ → ℝ → ℕ)
    (i : ℕ) (st : GibbsState) : Except GibbsFail GibbsState :=
  match beta_rvs (βd i ((x : ℝ) + (a : ℝ)) ((st.n : ℝ) - (x : ℝ) + (b : ℝ)))
      ((x : ℝ) + (a : ℝ)) ((st.n : ℝ) - (x : ℝ) + (b : ℝ)) with
  | .error e => .error ⟨i, e, st.ps, st.ns⟩
  | .ok pNew =>
    match poisson_rvs (yd i (l * (1 - st.p))) (l * (1 - st.p)) with
    | .error e => .error ⟨i, e, st.ps ++ [pNew], st.ns⟩
    | .ok yv =>
      .ok ⟨pNew, (x : ℤ) + (yv : ℤ), st.ps ++ [pNew],
        st.ns ++ [(x : ℤ) + (yv : ℤ)]⟩

/-- The Gibbs loop after `k` iterations (`i = 1..k`), aborting at the first
failing iteration (`Except.bind` propagates an error past the remaining
iterations, like an uncaught Python exception). -/
def gibbsLoopE (x a b : ℕ) (l : ℝ) (βd : ℕ → ℝ → ℝ → ℝ) (yd : ℕ → ℝ → ℕ) :
    ℕ → Except GibbsFail GibbsState
  | 0 => .ok (gibbsInit x)
  | k + 1 => (gibbsLoopE x a b l βd yd k).bind (gibbsStepE x a b l βd yd (k + 1))

/-- A full run: `niter - 1` loop iterations, as in `for i in range(1, niter)`. -/
def gibbsRunE (x a b : ℕ) (l : ℝ) (βd : ℕ → ℝ → ℝ → ℝ) (yd : ℕ → ℝ → ℕ)
    (niter : ℕ) : Except GibbsFail GibbsState :=
  gibbsLoopE x a b l βd yd (niter - 1)

/-- Validity of the distribution parameters used at iteration `i ≥ 1` of the
Gibbs loop: both Beta shape parameters positive and the Poisson rate
non-negative, expressed over the chain values of iteration `i - 1`. -/
def gibbsStepOK (x a b : ℕ) (l : ℝ) (βd : ℕ → ℝ → ℝ → ℝ) (yd : ℕ → ℝ → ℕ)
    (i : ℕ) : Prop :=
  (0 < (x : ℝ) + (a : ℝ) ∧
    0 < ((gibbsPN x a b l βd yd (i - 1)).2 : ℝ) - (x : ℝ) + (b : ℝ)) ∧
  0 ≤ l * (1 - (gibbsPN x a b l βd yd (i - 1)).1)

/-- The run state after `k` successful iterations: current values are the
pure-chain values at index `k` and the arrays hold the chain prefixes
`0..k`. -/
def gibbsStateAt (x a b : ℕ) (l : ℝ) (βd : ℕ → ℝ → ℝ → ℝ) (yd : ℕ → ℝ → ℕ)
    (k : ℕ) : GibbsState :=
  ⟨(gibbsPN x a b l βd yd k).1, (gibbsPN x a b l βd yd k).2,
   (List.range (k + 1)).map fun j => (gibbsPN x a b l βd yd j).1,
   (List.range (k + 1)).map fun j => (gibbsPN x a b l βd yd j).2⟩

end

/- Helper lemmas. -/

theorem normalPdf_nonneg (loc s z : ℝ) (hs : 0 ≤ s) : 0 ≤ normalPdf loc s z :=
  div_nonneg (Real.exp_pos _).le
    (mul_nonneg hs (Real.sqrt_nonneg _))

theorem normalPdf_ne_zero (loc s z : ℝ) (hs : s ≠ 0) : normalPdf loc s z ≠ 0 := by
  unfold normalPdf
  refine div_ne_zero (Real.exp_ne_zero _) (mul_ne_zero hs ?_)
  have h2π : (0 : ℝ) < 2 * Real.pi := by positivity
  exact (Real.sqrt_pos.mpr h2π).ne'

theorem proposalPdf_symm (d u v : ℝ) : proposalPdf d u v = proposalPdf d v u := by
  unfold proposalPdf normalPdf
  congr 1
  congr 1
  ring

theorem mhTarget_nonneg (y σ μ τ θ : ℝ) (hσ : 0 ≤ σ) (hτ : 0 ≤ τ) :
    0 ≤ mhTarget y σ μ τ θ :=
  mul_nonneg (normalPdf_nonneg _ _ _ hσ) (normalPdf_nonneg _ _ _ hτ)

theorem gibbsPN_zero (x a b : ℕ) (l : ℝ) (βd : ℕ → ℝ → ℝ → ℝ)
    (yd : ℕ → ℝ → ℕ) : gibbsPN x a b l βd yd 0 = (1 / 2, 2 * (x : ℤ)) := rfl

theorem gibbsPN_succ (x a b : ℕ) (l : ℝ) (βd : ℕ → ℝ → ℝ → ℝ)
    (yd : ℕ → ℝ → ℕ) (n : ℕ) :
    gibbsPN x a b l βd yd (n + 1)
      = (βd (n + 1) ((x : ℝ) + (a : ℝ))
          (((gibbsPN x a b l βd yd n).2 : ℝ) - (x : ℝ) + (b : ℝ)),
         (x : ℤ) + (yd (n + 1) (l * (1 - (gibbsPN x a b l βd yd n).1)) : ℤ)) :=
  rfl

theorem gibbsPNScan_succ (x a b : ℕ) (l : ℝ) (βd : ℕ → ℝ → ℝ → ℝ)
    (yd : ℕ → ℝ → ℕ) (n : ℕ) :
    gibbsPNScan x a b l βd yd (n + 1)
      = (βd (n + 1) ((x : ℝ) + (a : ℝ))
          (((gibbsPNScan x a b l βd yd n).2 : ℝ) - (x : ℝ) + (b : ℝ)),
         (x : ℤ) + (yd (n + 1) (l * (1 - βd (n + 1) ((x : ℝ) + (a : ℝ))
          (((gibbsPNScan x a b l βd yd n).2 : ℝ) - (x : ℝ) + (b : ℝ)))) : ℤ)) :=
  rfl

/-- Congruence of the MH chain in the draw streams: the state at index `i`
depends only on the draws at iterations `≤ i`. -/
theorem mhChain_congr (y σ μ τ : ℝ) (εs us εs' us' : ℕ → ℝ) (i : ℕ)
    (h : ∀ j, j ≤ i → εs j = εs' j ∧ us j = us' j) :
    mhChain y σ μ τ εs us i = mhChain y σ μ τ εs' us' i := by
  induction i with
  | zero => rfl
  | succ k ih =>
    have hk := ih fun j hj => h j (hj.trans (Nat.le_succ k))
    have hε := (h (k + 1) le_rfl).1
    have hu := (h (k + 1) le_rfl).2
    simp only [mhChain, mhStep, hk, hε, hu]

/-- Congruence of the Gibbs chain in the draw oracles: the state at index `i`
depends only on the draw oracles at iterations `≤ i`. -/
theorem gibbsPN_congr (x a b : ℕ) (l : ℝ) (βd βd' : ℕ → ℝ → ℝ → ℝ)
    (yd yd' : ℕ → ℝ → ℕ) (i : ℕ)
    (h : ∀ j, j ≤ i → βd j = βd' j ∧ yd j = yd' j) :
    gibbsPN x a b l βd yd i = gibbsPN x a b l βd' yd' i := by
  induction i with
  | zero => rfl
  | succ k ih =>
    have hk := ih fun j hj => h j (hj.trans (Nat.le_succ k))
    have hβ := (h (k + 1) le_rfl).1
    have hy := (h (k + 1) le_rfl).2
    rw [gibbsPN_succ, gibbsPN_succ, hk, hβ, hy]

/-- Reduction of one Gibbs iteration when both distribution parameters are
valid: both draws succeed, `P[i]` and `N[i]` are appended. -/
theorem gibbsStepE_ok (x a b : ℕ) (l : ℝ) (βd : ℕ → ℝ → ℝ → ℝ)
    (yd : ℕ → ℝ → ℕ) (i : ℕ) (st : GibbsState)
    (hap : 0 < (x : ℝ) + (a : ℝ))
    (hbp : 0 < (st.n : ℝ) - (x : ℝ) + (b : ℝ))
    (hmu : 0 ≤ l * (1 - st.p)) :
    gibbsStepE x a b l βd yd i st
      = .ok ⟨βd i ((x : ℝ) + (a : ℝ)) ((st.n : ℝ) - (x : ℝ) + (b : ℝ)),
          (x : ℤ) + (yd i (l * (1 - st.p)) : ℤ),
          st.ps ++ [βd i ((x : ℝ) + (a : ℝ)) ((st.n : ℝ) - (x : ℝ) + (b : ℝ))],
          st.ns ++ [(x : ℤ) + (yd i (l * (1 - st.p)) : ℤ)]⟩ := by
  unfold gibbsStepE beta_rvs poisson_rvs
  rw [if_neg (by push_neg; exact ⟨hap, hbp⟩), if_neg (not_lt.mpr hmu)]

/-- Reduction of one Gibbs iteration when a Beta shape parameter is invalid:
the iteration aborts before writing anything. -/
theorem gibbsStepE_beta_fail (x a b : ℕ) (l : ℝ) (βd : ℕ → ℝ → ℝ → ℝ)
    (yd : ℕ → ℝ → ℕ) (i : ℕ) (st : GibbsState)
    (h : (x : ℝ) + (a : ℝ) ≤ 0 ∨ (st.n : ℝ) - (x : ℝ) + (b : ℝ) ≤ 0) :
    gibbsStepE x a b l βd yd i st
      = .error ⟨i, MCMCError.invalidParameter, st.ps, st.ns⟩ := by
  unfold gibbsStepE beta_rvs
  rw [if_pos h]

/-- Reduction of one Gibbs iteration when the Beta draw succeeds but the
Poisson rate is negative: the iteration aborts with `P[i]` already written. -/
theorem gibbsStepE_poisson_fail (x a b : ℕ) (l : ℝ) (βd : ℕ → ℝ → ℝ → ℝ)
    (yd : ℕ → ℝ → ℕ) (i : ℕ) (st : GibbsState)
    (hap : 0 < (x : ℝ) + (a : ℝ))
    (hbp : 0 < (st.n : ℝ) - (x : ℝ) + (b : ℝ))
    (hmu : l * (1 - st.p) < 0) :
    gibbsStepE x a b l βd yd i st
      = .error ⟨i, MCMCError.invalidParameter,
          st.ps ++ [βd i ((x : ℝ) + (a : ℝ)) ((st.n : ℝ) - (x : ℝ) + (b : ℝ))],
          st.ns⟩ := by
  unfold gibbsStepE beta_rvs poisson_rvs
  rw [if_neg (by push_neg; exact ⟨hap, hbp⟩), if_pos hmu]

/-- As long as every iteration's distribution parameters are valid, the
fallible Gibbs loop succeeds and its state mirrors the pure chain: current
values are the chain values at index `k` and the arrays hold the chain
prefixes `0..k`. -/
theorem gibbsLoopE_ok (x a b : ℕ) (l : ℝ) (βd : ℕ → ℝ → ℝ → ℝ)
    (yd : ℕ → ℝ → ℕ) (k : ℕ)
    (hok : ∀ j, 1 ≤ j → j ≤ k → gibbsStepOK x a b l βd yd j) :
    gibbsLoopE x a b l βd yd k = .ok (gibbsStateAt x a b l βd yd k) := by
  induction k with
  | zero => rfl
  | succ m ih =>
    have hmih := ih fun j h1 h2 => hok j h1 (h2.trans (Nat.le_succ m))
    obtain ⟨⟨hap, hbp⟩, hmu⟩ := hok (m + 1) (by omega) le_rfl
    have hbp' : 0 < ((gibbsStateAt x a b l βd yd m).n : ℝ) - (x : ℝ) + (b : ℝ) := hbp
    have hmu' : 0 ≤ l * (1 - (gibbsStateAt x a b l βd yd m).p) := hmu
    show (gibbsLoopE x a b l βd yd m).bind (gibbsStepE x a b l βd yd (m + 1)) = _
    rw [hmih]
    show gibbsStepE x a b l βd yd (m + 1) (gibbsStateAt x a b l βd yd m) = _
    rw [gibbsStepE_ok x a b l βd yd (m + 1) (gibbsStateAt x a b l βd yd m)
      hap hbp' hmu']
    have hr : List.range (m + 1 + 1) = List.range (m + 1) ++ [m + 1] :=
      List.range_succ (m + 1)
    unfold gibbsStateAt
    rw [hr, List.map_append, List.map_append]
    rfl

/-- Once the loop has failed, every longer loop reports the same failure:
the error is propagated, not retried or overwritten. -/
theorem gibbsLoopE_error_of_le (x a b : ℕ) (l : ℝ) (βd : ℕ → ℝ → ℝ → ℝ)
    (yd : ℕ → ℝ → ℕ) (k k' : ℕ) (fl : GibbsFail)
    (h : gibbsLoopE x a b l βd yd k = .error fl) (hk : k ≤ k') :
    gibbsLoopE x a b l βd yd k' = .error fl := by
  induction k' with
  | zero =>
    have : k = 0 := Nat.le_zero.mp hk
    rw [← this]
    exact h
  | succ m ih =>
    by_cases hkm : k ≤ m
    · have hm := ih hkm
      show (gibbsLoopE x a b l βd yd m).bind (gibbsStepE x a b l βd yd (m + 1))
        = .error fl
      rw [hm]
      rfl
    · have : k = m + 1 := by omega
      rw [← this]
      exact h

/- Claim theorems. -/

/-- C6: for every MH transition the acceptance probability `min(r, 1)` the
code hands to the coin flip lies in `[0, 1]`, whatever the current and
proposed states are (in particular for arbitrarily extreme density ratios). -/
theorem mh_acceptance_prob_unit_interval (y σ μ τ u v : ℝ)
    (hσ : 0 < σ) (hτ : 0 < τ) :
    0 ≤ mhAccept y σ μ τ u v ∧ mhAccept y σ μ τ u v ≤ 1 := by
  constructor
  · exact le_min
      (div_nonneg (mhTarget_nonneg _ _ _ _ _ hσ.le hτ.le)
        (mhTarget_nonneg _ _ _ _ _ hσ.le hτ.le)) zero_le_one
  · exact min_le_right _ _

/-- Witness for C6: the notebook's constants `y=3, σ=1, μ=0, τ=2` with an
extreme proposed state. -/
theorem mh_acceptance_prob_unit_interval_witness :
    0 ≤ mhAccept 3 1 0 2 3 1000 ∧ mhAccept 3 1 0 2 3 1000 ≤ 1 :=
  mh_acceptance_prob_unit_interval 3 1 0 2 3 1000 one_pos two_pos

/-- C5: the random-walk kernel of the notebook is symmetric, and the full
Metropolis-Hastings acceptance probability
`min(s(x')p(x',x)/(s(x)p(x,x')), 1)` coincides with the acceptance
probability `min(r, 1)` the code computes from the target-density ratio
alone: the two proposal-density terms cancel exactly. -/
theorem mh_symmetric_kernel_cancellation (y σ μ τ d u v : ℝ) (hd : 0 < d) :
    (∀ p q : ℝ, proposalPdf d p q = proposalPdf d q p) ∧
    min (mhTarget y σ μ τ v * proposalPdf d v u /
        (mhTarget y σ μ τ u * proposalPdf d u v)) 1
      = mhAccept y σ μ τ u v := by
  refine ⟨fun p q => proposalPdf_symm d p q, ?_⟩
  unfold mhAccept mhR
  congr 1
  rw [proposalPdf_symm d v u]
  exact mul_div_mul_right _ _ (normalPdf_ne_zero _ _ _ hd.ne')

/-- Witness for C5 at the notebook's constants `y=3, σ=1, μ=0, τ=2, d=1` and
states `u=0, v=1`. -/
theorem mh_symmetric_kernel_cancellation_witness :
    (∀ p q : ℝ, proposalPdf 1 p q = proposalPdf 1 q p) ∧
    min (mhTarget 3 1 0 2 1 * proposalPdf 1 1 0 /
        (mhTarget 3 1 0 2 0 * proposalPdf 1 0 1)) 1
      = mhAccept 3 1 0 2 0 1 :=
  mh_symmetric_kernel_cancellation 3 1 0 2 1 0 1 one_pos

/-- C7: in every MH step, if the coin-flip accepts (`u < a`) the new chain
state is the proposed candidate `Theta[i-1] + ε`; if it rejects, the state
written at index `i` is exactly the state at index `i-1`
(`Theta[i] = theta_new if flip == 1 else Theta[i-1]`). -/
theorem mh_accept_reject_step (y σ μ τ : ℝ) (εs us : ℕ → ℝ) (i : ℕ) :
    (us (i + 1) < mhAccept y σ μ τ (mhChain y σ μ τ εs us i)
        (mhChain y σ μ τ εs us i + εs (i + 1)) →
      mhChain y σ μ τ εs us (i + 1) = mhChain y σ μ τ εs us i + εs (i + 1)) ∧
    (¬ us (i + 1) < mhAccept y σ μ τ (mhChain y σ μ τ εs us i)
        (mhChain y σ μ τ εs us i + εs (i + 1)) →
      mhChain y σ μ τ εs us (i + 1) = mhChain y σ μ τ εs us i) := by
  constructor
  · intro h
    simp only [mhChain, mhStep, if_pos h]
  · intro h
    simp only [mhChain, mhStep, if_neg h]

/-- Witness for C7: with the uniform draw `u = 2` the coin cannot accept
(the acceptance probability is at most `1`), so the chain stays at `y = 3`. -/
theorem mh_accept_reject_step_witness :
    mhChain 3 1 0 2 (fun _ => 0) (fun _ => 2) 1 = 3 := by
  have h : ¬ ((fun _ : ℕ => (2 : ℝ)) 1 < mhAccept 3 1 0 2
      (mhChain 3 1 0 2 (fun _ => 0) (fun _ => 2) 0)
      (mhChain 3 1 0 2 (fun _ => 0) (fun _ => 2) 0 + (fun _ : ℕ => (0 : ℝ)) 1)) := by
    refine not_lt.mpr ((min_le_right _ _).trans ?_)
    exact one_le_two
  exact ((mh_accept_reject_step 3 1 0 2 (fun _ => 0) (fun _ => 2) 0).2 h).trans rfl

/-- C8: a run with `niter` iterations materializes a trace of exactly `niter`
states; entry `0` is the caller-supplied initial state `y`; entry `i` of the
trace is `Theta[i]`, and each `Theta[i]` with `1 ≤ i < niter` is produced
from `Theta[i-1]` by exactly one sampler transition; for `niter = 1` the
trace is `[y]` and the step clause is vacuous (zero transitions). -/
theorem mh_run_shape (y σ μ τ : ℝ) (εs us : ℕ → ℝ) (niter : ℕ)
    (hniter : 1 ≤ niter) :
    (mhTrace y σ μ τ εs us niter).length = niter ∧
    (mhTrace y σ μ τ εs us niter)[0]? = some y ∧
    (∀ i, i < niter →
      (mhTrace y σ μ τ εs us niter)[i]? = some (mhChain y σ μ τ εs us i)) ∧
    (∀ i, 1 ≤ i → i < niter →
      mhChain y σ μ τ εs us i
        = mhStep y σ μ τ εs us i (mhChain y σ μ τ εs us (i - 1))) ∧
    mhTrace y σ μ τ εs us 1 = [y] := by
  have hget : ∀ i, i < niter →
      (mhTrace y σ μ τ εs us niter)[i]? = some (mhChain y σ μ τ εs us i) := by
    intro i hi
    unfold mhTrace
    rw [List.getElem?_map, List.getElem?_range hi]
    rfl
  refine ⟨?_, ?_, hget, ?_, ?_⟩
  · unfold mhTrace
    rw [List.length_map, List.length_range]
  · have := hget 0 (by omega)
    simpa using this
  · intro i h1 _
    cases i with
    | zero => omega
    | succ k => rfl
  · unfold mhTrace
    have h1 : List.range 1 = [0] := rfl
    rw [h1]
    rfl

/-- Witness for C8: the boundary run `niter = 1` from `y = 3`. -/
theorem mh_run_shape_witness :
    (mhTrace 3 1 0 2 (fun _ => 0) (fun _ => 0) 1).length = 1 ∧
    (mhTrace 3 1 0 2 (fun _ => 0) (fun _ => 0) 1)[0]? = some 3 ∧
    (∀ i, i < 1 →
      (mhTrace 3 1 0 2 (fun _ => 0) (fun _ => 0) 1)[i]?
        = some (mhChain 3 1 0 2 (fun _ => 0) (fun _ => 0) i)) ∧
    (∀ i, 1 ≤ i → i < 1 →
      mhChain 3 1 0 2 (fun _ => 0) (fun _ => 0) i
        = mhStep 3 1 0 2 (fun _ => 0) (fun _ => 0) i
            (mhChain 3 1 0 2 (fun _ => 0) (fun _ => 0) (i - 1))) ∧
    mhTrace 3 1 0 2 (fun _ => 0) (fun _ => 0) 1 = [3] :=
  mh_run_shape 3 1 0 2 (fun _ => 0) (fun _ => 0) 1 le_rfl

/-- C2: evaluation of the code at the divergence point.  With the notebook's
constants `x=7, l=10, a=b=1` and draw oracles for which the iteration-1 Beta
draw is `9/10`, the code's `N[1]` is `7 + ⌊10·(1−P[0])⌋ = 12` — it conditions
on `P[0] = 0.5` — whereas the systematic-scan contract the claim states
(condition on the freshly drawn `P[1] = 9/10`) yields `7 + ⌊10·(1−P[1])⌋ = 8`.
The code therefore does not implement the claimed update order. -/
theorem gibbs_N_update_sees_stale_p :
    (gibbsPN 7 1 1 10 betaDrawW poisDrawW 1).2 = 12 ∧
    (gibbsPNScan 7 1 1 10 betaDrawW poisDrawW 1).2 = 8 ∧
    (gibbsPN 7 1 1 10 betaDrawW poisDrawW 1).2
      ≠ (gibbsPNScan 7 1 1 10 betaDrawW poisDrawW 1).2 := by
  have hfloor5 : ⌊(10 : ℝ) * (1 - 1 / 2)⌋ = 5 := by
    have h : (10 : ℝ) * (1 - 1 / 2) = ((5 : ℤ) : ℝ) := by norm_num
    rw [h, Int.floor_intCast]
  have hfloor1 : ⌊(10 : ℝ) * (1 - 9 / 10)⌋ = 1 := by
    have h : (10 : ℝ) * (1 - 9 / 10) = ((1 : ℤ) : ℝ) := by norm_num
    rw [h, Int.floor_intCast]
  have hcode : (gibbsPN 7 1 1 10 betaDrawW poisDrawW 1).2 = 12 := by
    show ((7 : ℕ) : ℤ) + ((⌊(10 : ℝ) * (1 - 1 / 2)⌋).toNat : ℤ) = 12
    rw [hfloor5]
    decide
  have hscan : (gibbsPNScan 7 1 1 10 betaDrawW poisDrawW 1).2 = 8 := by
    show ((7 : ℕ) : ℤ) + ((⌊(10 : ℝ) * (1 - 9 / 10)⌋).toNat : ℤ) = 8
    rw [hfloor1]
    decide
  refine ⟨hcode, hscan, ?_⟩
  rw [hcode, hscan]
  decide

/-- C9: every state of the `N`-component of the Gibbs chain satisfies
`N ≥ x`: the initial value is `N[0] = 2*x ≥ x`, and each later value is
`x` plus a non-negative Poisson draw. -/
theorem gibbs_N_ge_x (x a b : ℕ) (l : ℝ) (βd : ℕ → ℝ → ℝ → ℝ)
    (yd : ℕ → ℝ → ℕ) :
    (∀ i, (x : ℤ) ≤ (gibbsPN x a b l βd yd i).2) ∧
    (gibbsPN x a b l βd yd 0).2 = 2 * (x : ℤ) := by
  refine ⟨?_, rfl⟩
  intro i
  cases i with
  | zero =>
    rw [gibbsPN_zero]
    omega
  | succ n =>
    rw [gibbsPN_succ]
    exact le_add_of_nonneg_right (Int.natCast_nonneg _)

/-- C3: the trace of a run is a deterministic function of the configuration
and the random draws.  Two MH runs whose draw streams agree on the iterations
used produce identical traces, and likewise two Gibbs runs whose draw oracles
agree on the iterations used produce identical traces — seeding the random
source fixes the draws and hence the whole trace. -/
theorem chain_trace_deterministic_in_draws (y σ μ τ : ℝ) (x a b : ℕ) (l : ℝ)
    (εs us εs' us' : ℕ → ℝ) (βd βd' : ℕ → ℝ → ℝ → ℝ) (yd yd' : ℕ → ℝ → ℕ)
    (niter : ℕ)
    (hmh : ∀ i, i < niter → εs i = εs' i ∧ us i = us' i)
    (hgb : ∀ i, i < niter → βd i = βd' i ∧ yd i = yd' i) :
    mhTrace y σ μ τ εs us niter = mhTrace y σ μ τ εs' us' niter ∧
    gibbsTrace x a b l βd yd niter = gibbsTrace x a b l βd' yd' niter := by
  constructor
  · unfold mhTrace
    refine List.map_congr_left fun j hj => ?_
    have hjn : j < niter := List.mem_range.mp hj
    exact mhChain_congr y σ μ τ εs us εs' us' j
      fun k hk => hmh k (lt_of_le_of_lt hk hjn)
  · unfold gibbsTrace
    refine List.map_congr_left fun j hj => ?_
    have hjn : j < niter := List.mem_range.mp hj
    exact gibbsPN_congr x a b l βd βd' yd yd' j
      fun k hk => hgb k (lt_of_le_of_lt hk hjn)

/-- Witness for C3: two runs over the identical draw streams (same seed)
with the notebook's configurations and `niter = 4`. -/
theorem chain_trace_deterministic_in_draws_witness :
    mhTrace 3 1 0 2 (fun _ => 0) (fun _ => 0) 4
      = mhTrace 3 1 0 2 (fun _ => 0) (fun _ => 0) 4 ∧
    gibbsTrace 7 1 1 10 (fun _ _ _ => 1 / 2) (fun _ _ => 0) 4
      = gibbsTrace 7 1 1 10 (fun _ _ _ => 1 / 2) (fun _ _ => 0) 4 :=
  chain_trace_deterministic_in_draws 3 1 0 2 7 1 1 10
    (fun _ => 0) (fun _ => 0) (fun _ => 0) (fun _ => 0)
    (fun _ _ _ => 1 / 2) (fun _ _ _ => 1 / 2) (fun _ _ => 0) (fun _ _ => 0) 4
    (fun _ _ => ⟨rfl, rfl⟩) (fun _ _ => ⟨rfl, rfl⟩)

/-- C10: in the chicken-egg run every `p`-value lies in `[0,1]` (the initial
value is `0.5`, every later one a Beta draw), hence every Poisson rate
`l*(1-P[i-1])` lies in `[0, l]` and is a valid parameter: the
invalid-parameter branch of the Poisson draw is never taken. -/
theorem gibbs_p_unit_interval_poisson_param_valid (x a b : ℕ) (l : ℝ)
    (βd : ℕ → ℝ → ℝ → ℝ) (yd : ℕ → ℝ → ℕ)
    (hl : 0 ≤ l)
    (hβ : ∀ i ap bp, 0 ≤ βd i ap bp ∧ βd i ap bp ≤ 1) :
    (∀ i, 0 ≤ (gibbsPN x a b l βd yd i).1 ∧ (gibbsPN x a b l βd yd i).1 ≤ 1) ∧
    (∀ i, 0 ≤ l * (1 - (gibbsPN x a b l βd yd i).1) ∧
      l * (1 - (gibbsPN x a b l βd yd i).1) ≤ l) ∧
    (∀ i, poisson_rvs (yd (i + 1) (l * (1 - (gibbsPN x a b l βd yd i).1)))
        (l * (1 - (gibbsPN x a b l βd yd i).1))
      = Except.ok (yd (i + 1) (l * (1 - (gibbsPN x a b l βd yd i).1)))) := by
  have hp : ∀ i, 0 ≤ (gibbsPN x a b l βd yd i).1
      ∧ (gibbsPN x a b l βd yd i).1 ≤ 1 := by
    intro i
    cases i with
    | zero =>
      rw [gibbsPN_zero]
      norm_num
    | succ n =>
      rw [gibbsPN_succ]
      exact hβ _ _ _
  have hmu : ∀ i, 0 ≤ l * (1 - (gibbsPN x a b l βd yd i).1) ∧
      l * (1 - (gibbsPN x a b l βd yd i).1) ≤ l := by
    intro i
    obtain ⟨h0, h1⟩ := hp i
    constructor
    · exact mul_nonneg hl (by linarith)
    · calc l * (1 - (gibbsPN x a b l βd yd i).1) ≤ l * 1 :=
          mul_le_mul_of_nonneg_left (by linarith) hl
        _ = l := mul_one l
  refine ⟨hp, hmu, fun i => ?_⟩
  unfold poisson_rvs
  rw [if_neg (not_lt.mpr (hmu i).1)]

/-- Witness for C10: the notebook's constants `x=7, l=10, a=b=1` with a
Beta-draw oracle returning `1/2` and a Poisson-draw oracle returning `0`,
instantiated at iteration `1`. -/
theorem gibbs_p_unit_interval_poisson_param_valid_witness :
    (∀ i, 0 ≤ (gibbsPN 7 1 1 10 (fun _ _ _ => 1 / 2) (fun _ _ => 0) i).1 ∧
      (gibbsPN 7 1 1 10 (fun _ _ _ => 1 / 2) (fun _ _ => 0) i).1 ≤ 1) ∧
    (∀ i, 0 ≤ 10 * (1 - (gibbsPN 7 1 1 10 (fun _ _ _ => 1 / 2) (fun _ _ => 0) i).1) ∧
      10 * (1 - (gibbsPN 7 1 1 10 (fun _ _ _ => 1 / 2) (fun _ _ => 0) i).1) ≤ 10) ∧
    (∀ i, poisson_rvs ((fun _ _ => 0 : ℕ → ℝ → ℕ) (i + 1)
        (10 * (1 - (gibbsPN 7 1 1 10 (fun _ _ _ => 1 / 2) (fun _ _ => 0) i).1)))
        (10 * (1 - (gibbsPN 7 1 1 10 (fun _ _ _ => 1 / 2) (fun _ _ => 0) i).1))
      = Except.ok ((fun _ _ => 0 : ℕ → ℝ → ℕ) (i + 1)
        (10 * (1 - (gibbsPN 7 1 1 10 (fun _ _ _ => 1 / 2) (fun _ _ => 0) i).1)))) :=
  gibbs_p_unit_interval_poisson_param_valid 7 1 1 10
    (fun _ _ _ => 1 / 2) (fun _ _ => 0) (by norm_num)
    (fun _ _ _ => ⟨by norm_num, by norm_num⟩)

/-- C4: if every iteration before `i` has valid parameters and iteration `i`
does not, the run aborts at iteration `i`: the result is an error (never a
success) carrying the iteration index `i`, the `InvalidParameter` error, the
`N`-array prefix of steps `0..i-1`, and the `P`-array prefix of steps
`0..i-1` (possibly extended by `P[i]` when the Beta draw of step `i` had
already been assigned before the Poisson draw raised).  The reported index
is the first failing one: no iteration is retried or skipped. -/
theorem gibbs_run_aborts_with_partial_trace (x a b : ℕ) (l : ℝ)
    (βd : ℕ → ℝ → ℝ → ℝ) (yd : ℕ → ℝ → ℕ) (i niter : ℕ)
    (h1 : 1 ≤ i) (h2 : i < niter)
    (hok : ∀ j, 1 ≤ j → j < i → gibbsStepOK x a b l βd yd j)
    (hfail : ¬ gibbsStepOK x a b l βd yd i) :
    ∃ fl : GibbsFail,
      gibbsRunE x a b l βd yd niter = .error fl ∧
      fl.idx = i ∧
      fl.err = MCMCError.invalidParameter ∧
      fl.nTrace = (List.range i).map (fun j => (gibbsPN x a b l βd yd j).2) ∧
      (fl.pTrace = (List.range i).map (fun j => (gibbsPN x a b l βd yd j).1) ∨
        fl.pTrace = (List.range (i + 1)).map (fun j => (gibbsPN x a b l βd yd j).1)) ∧
      ∀ st, gibbsRunE x a b l βd yd niter ≠ .ok st := by
  obtain ⟨m, rfl⟩ : ∃ m, i = m + 1 := ⟨i - 1, by omega⟩
  have hprev : gibbsLoopE x a b l βd yd m = .ok (gibbsStateAt x a b l βd yd m) :=
    gibbsLoopE_ok x a b l βd yd m fun j hj1 hj2 => hok j hj1 (by omega)
  have hstepfail : ∃ fl : GibbsFail,
      gibbsStepE x a b l βd yd (m + 1) (gibbsStateAt x a b l βd yd m) = .error fl ∧
      fl.idx = m + 1 ∧ fl.err = MCMCError.invalidParameter ∧
      fl.nTrace = (List.range (m + 1)).map (fun j => (gibbsPN x a b l βd yd j).2) ∧
      (fl.pTrace = (List.range (m + 1)).map (fun j => (gibbsPN x a b l βd yd j).1) ∨
        fl.pTrace = (List.range (m + 1 + 1)).map (fun j => (gibbsPN x a b l βd yd j).1)) := by
    by_cases hβok : 0 < (x : ℝ) + (a : ℝ) ∧
        0 < ((gibbsPN x a b l βd yd m).2 : ℝ) - (x : ℝ) + (b : ℝ)
    · have hmu : l * (1 - (gibbsPN x a b l βd yd m).1) < 0 := by
        by_contra hc
        exact hfail ⟨hβok, not_lt.mp hc⟩
      have hbp' : 0 < ((gibbsStateAt x a b l βd yd m).n : ℝ) - (x : ℝ) + (b : ℝ) :=
        hβok.2
      have hmu' : l * (1 - (gibbsStateAt x a b l βd yd m).p) < 0 := hmu
      refine ⟨⟨m + 1, MCMCError.invalidParameter,
        ((List.range (m + 1)).map fun j => (gibbsPN x a b l βd yd j).1)
          ++ [βd (m + 1) ((x : ℝ) + (a : ℝ))
            (((gibbsPN x a b l βd yd m).2 : ℝ) - (x : ℝ) + (b : ℝ))],
        (List.range (m + 1)).map fun j => (gibbsPN x a b l βd yd j).2⟩,
        ?_, rfl, rfl, rfl, ?_⟩
      · exact gibbsStepE_poisson_fail x a b l βd yd (m + 1)
          (gibbsStateAt x a b l βd yd m) hβok.1 hbp' hmu'
      · right
        have hr : List.range (m + 1 + 1) = List.range (m + 1) ++ [m + 1] :=
          List.range_succ (m + 1)
        rw [hr, List.map_append]
        rfl
    · have hcond : (x : ℝ) + (a : ℝ) ≤ 0 ∨
          ((gibbsStateAt x a b l βd yd m).n : ℝ) - (x : ℝ) + (b : ℝ) ≤ 0 := by
        rcases not_and_or.mp hβok with h | h
        · exact Or.inl (not_lt.mp h)
        · exact Or.inr (not_lt.mp h)
      exact ⟨⟨m + 1, MCMCError.invalidParameter,
        (List.range (m + 1)).map fun j => (gibbsPN x a b l βd yd j).1,
        (List.range (m + 1)).map fun j => (gibbsPN x a b l βd yd j).2⟩,
        gibbsStepE_beta_fail x a b l βd yd (m + 1)
          (gibbsStateAt x a b l βd yd m) hcond, rfl, rfl, rfl, Or.inl rfl⟩
  obtain ⟨fl, hfl, hidx, herr, hn, hp⟩ := hstepfail
  have hloop : gibbsLoopE x a b l βd yd (m + 1) = .error fl := by
    show (gibbsLoopE x a b l βd yd m).bind (gibbsStepE x a b l βd yd (m + 1))
      = .error fl
    rw [hprev]
    exact hfl
  have hrun : gibbsRunE x a b l βd yd niter = .error fl := by
    unfold gibbsRunE
    exact gibbsLoopE_error_of_le x a b l βd yd (m + 1) (niter - 1) fl hloop
      (by omega)
  exact ⟨fl, hrun, hidx, herr, hn, hp, fun st hst => by
    rw [hrun] at hst
    exact Except.noConfusion hst⟩

/-- Witness for C4: with `l = -1` the very first Poisson rate
`l*(1-P[0]) = -1/2` is negative, so the run of length `niter = 2` aborts at
iteration `1` with the initial-state prefixes as partial trace. -/
theorem gibbs_run_aborts_with_partial_trace_witness :
    ∃ fl : GibbsFail,
      gibbsRunE 7 1 1 (-1) (fun _ _ _ => 1 / 2) (fun _ _ => 0) 2 = .error fl ∧
      fl.idx = 1 ∧
      fl.err = MCMCError.invalidParameter ∧
      fl.nTrace = (List.range 1).map
        (fun j => (gibbsPN 7 1 1 (-1) (fun _ _ _ => 1 / 2) (fun _ _ => 0) j).2) ∧
      (fl.pTrace = (List.range 1).map
          (fun j => (gibbsPN 7 1 1 (-1) (fun _ _ _ => 1 / 2) (fun _ _ => 0) j).1) ∨
        fl.pTrace = (List.range 2).map
          (fun j => (gibbsPN 7 1 1 (-1) (fun _ _ _ => 1 / 2) (fun _ _ => 0) j).1)) ∧
      ∀ st, gibbsRunE 7 1 1 (-1) (fun _ _ _ => 1 / 2) (fun _ _ => 0) 2 ≠ .ok st := by
  refine gibbs_run_aborts_with_partial_trace 7 1 1 (-1)
    (fun _ _ _ => 1 / 2) (fun _ _ => 0) 1 2 le_rfl one_lt_two
    (fun j hj1 hj2 => absurd (lt_of_le_of_lt hj1 hj2) (lt_irrefl 1)) ?_
  intro h
  have hmu := h.2
  have hP0 : (gibbsPN 7 1 1 (-1) (fun _ _ _ => 1 / 2) (fun _ _ => 0) 0).1
      = 1 / 2 := rfl
  rw [hP0] at hmu
  norm_num at hmu
